import Mathlib

/-!
The MHT module of Delphes 3.0.12 (`modules/MHT.cc`).

`MHT::Process` runs four selection loops (jets, electrons, muons, photons) over the
input arrays, adds the momentum of every candidate that passes its efficiency formula
to one accumulated four-vector, turns the azimuthal angle of that vector by the literal
`3.14159` and appends one fresh candidate carrying it to the output array.

Modelling decisions.

* The definitions use only the operations of `Double_t` that the code uses (sum,
  product, comparison, literals), over any carrier `R`. The theorems read `Double_t` as
  an element of a linearly ordered field (exact arithmetic), and of `ℝ` where the libm
  functions matter; the one statement about rounding is made on `Double64`, the finite
  binary64 values with round-to-nearest-even operations.
* The functions of `TMath` used through `TLorentzVector` (`Sqrt`, `Cos`, `Sin`, `ATan2`,
  `Log`) are not part of the repository: they are a parameter `m : TMath R` of every
  definition, and `TMath.real` is their instance on the real numbers.
* `gRandom` is a state: the sequence of values that `Uniform()` is going to return and
  the number of values already taken from it.
* A compiled `DelphesFormula` is the function `Eval : pt → eta → value`.
* The input arrays and the output array are lists of candidates; a candidate is reduced
  to the two fields the module touches, `Position` and `Momentum`.
-/

namespace Delphes

/-- Library functions of `TMath` reached from `TLorentzVector`; absent from the sources,
so they are a parameter of the embedding. -/
structure TMath (R : Type) where
  Sqrt : R → R
  Cos : R → R
  Sin : R → R
  ATan2 : R → R → R
  Log : R → R

/-- The `TMath` functions on the real numbers. `ATan2 y x` is the argument of `x + y i`,
in `(-π, π]`. -/
noncomputable def TMath.real : TMath ℝ where
  Sqrt := Real.sqrt
  Cos := Real.cos
  Sin := Real.sin
  ATan2 := fun y x => Complex.arg ⟨x, y⟩
  Log := Real.log

/-- ROOT four-vector: the three-vector part `fP = (fX, fY, fZ)` and the energy `fE`. -/
@[ext]
structure TLorentzVector (R : Type) where
  fX : R
  fY : R
  fZ : R
  fE : R

namespace TLorentzVector

variable {R : Type}

/-- `SetPxPyPzE(px, py, pz, e)`. -/
def SetPxPyPzE (px py pz e : R) : TLorentzVector R := ⟨px, py, pz, e⟩

/-- `SetXYZT(x, y, z, t)`. -/
def SetXYZT (x y z t : R) : TLorentzVector R := ⟨x, y, z, t⟩

/-- `operator+=`: the four components are added one by one. -/
def plusAssign [Add R] (a b : TLorentzVector R) : TLorentzVector R :=
  ⟨a.fX + b.fX, a.fY + b.fY, a.fZ + b.fZ, a.fE + b.fE⟩

instance [Add R] : Add (TLorentzVector R) := ⟨plusAssign⟩

instance [Zero R] : Zero (TLorentzVector R) := ⟨⟨0, 0, 0, 0⟩⟩

/-- With exact arithmetic the component-wise addition is associative and commutative,
so four-vectors can be summed over lists. -/
instance [AddCommMonoid R] : AddCommMonoid (TLorentzVector R) where
  add_assoc a b c := TLorentzVector.ext (add_assoc _ _ _) (add_assoc _ _ _)
    (add_assoc _ _ _) (add_assoc _ _ _)
  zero_add a := TLorentzVector.ext (zero_add _) (zero_add _) (zero_add _) (zero_add _)
  add_zero a := TLorentzVector.ext (add_zero _) (add_zero _) (add_zero _) (add_zero _)
  add_comm a b := TLorentzVector.ext (add_comm _ _) (add_comm _ _) (add_comm _ _)
    (add_comm _ _)
  nsmul := nsmulRec

variable [Zero R] [One R] [Add R] [Sub R] [Mul R] [Div R] [Neg R] [OfScientific R]
  [LE R] [LT R] [DecidableEq R] [DecidableRel (LE.le : R → R → Prop)]
  [DecidableRel (LT.lt : R → R → Prop)]

/-- `TVector3::Perp2`. -/
def Perp2 (v : TLorentzVector R) : R := v.fX * v.fX + v.fY * v.fY

/-- Modelled from the spec: `TVector3::Perp` of the ROOT library (not under src/), the
transverse magnitude `sqrt(px^2 + py^2)`. -/
def Perp (m : TMath R) (v : TLorentzVector R) : R := m.Sqrt v.Perp2

/-- Modelled from the spec: `TLorentzVector::Pt` of the ROOT library (not under src/), the
transverse momentum. -/
def Pt (m : TMath R) (v : TLorentzVector R) : R := v.Perp m

/-- `TVector3::Mag2`. -/
def Mag2 (v : TLorentzVector R) : R := v.fX * v.fX + v.fY * v.fY + v.fZ * v.fZ

/-- Modelled from the spec: `TVector3::Mag` of the ROOT library (not under src/), the
magnitude of the three-momentum. -/
def Mag (m : TMath R) (v : TLorentzVector R) : R := m.Sqrt v.Mag2

/-- `TVector3::CosTheta`: `1` for the null three-vector, else `fZ / Mag()`. -/
def CosTheta (m : TMath R) (v : TLorentzVector R) : R :=
  if v.Mag m = 0 then 1 else v.fZ / v.Mag m

/-- Modelled from the spec: `TLorentzVector::Eta` of the ROOT library (not under src/), the
pseudorapidity derived from the momentum, with ROOT's guards for a vanishing
transverse momentum. -/
def Eta (m : TMath R) (v : TLorentzVector R) : R :=
  let cosTheta := v.CosTheta m
  if cosTheta * cosTheta < 1 then -0.5 * m.Log ((1 - cosTheta) / (1 + cosTheta))
  else if v.fZ = 0 then 0
  else if 0 < v.fZ then 10e10
  else -10e10

/-- Modelled from the spec: `TLorentzVector::Phi` of the ROOT library (not under src/), the
azimuthal angle of the momentum, `0` when both transverse components vanish. -/
def Phi (m : TMath R) (v : TLorentzVector R) : R :=
  if v.fX = 0 ∧ v.fY = 0 then 0 else m.ATan2 v.fY v.fX

/-- Modelled from the spec: `TLorentzVector::SetPhi` of the ROOT library (not under src/):
the azimuthal angle is replaced by `ph`, the transverse magnitude, the longitudinal
component and the energy are kept. -/
def SetPhi (m : TMath R) (v : TLorentzVector R) (ph : R) : TLorentzVector R :=
  let xy := v.Perp m
  { v with fX := xy * m.Cos ph, fY := xy * m.Sin ph }

end TLorentzVector

/-- A `Candidate`, reduced to the fields `MHT` reads or writes. -/
structure Candidate (R : Type) where
  Position : TLorentzVector R
  Momentum : TLorentzVector R

/-- `DelphesFactory::NewCandidate`: a candidate with cleared fields. -/
def NewCandidate {R : Type} [Zero R] : Candidate R := ⟨0, 0⟩

/-- The process-wide random source `gRandom`: `seq` is the sequence of values that
`Uniform()` returns, `pos` the number of values consumed so far. -/
structure TRandom (R : Type) where
  seq : Nat → R
  pos : Nat

/-- `gRandom->Uniform()`: the next value of the sequence, and the advanced source. -/
def TRandom.Uniform {R : Type} (g : TRandom R) : R × TRandom R :=
  (g.seq g.pos, { g with pos := g.pos + 1 })

/-- The members of an `MHT` module after `Init`: four input arrays, the output array
and the four compiled selection formulas. -/
structure MHT (R : Type) where
  fJetInputArray : List (Candidate R)
  fElectronInputArray : List (Candidate R)
  fMuonInputArray : List (Candidate R)
  fPhotonInputArray : List (Candidate R)
  fMomentumOutputArray : List (Candidate R)
  fJetSelectionFormula : R → R → R
  fElectronSelectionFormula : R → R → R
  fMuonSelectionFormula : R → R → R
  fPhotonSelectionFormula : R → R → R

namespace MHT

variable {R : Type} [Zero R] [One R] [Add R] [Sub R] [Mul R] [Div R] [Neg R] [OfScientific R]
  [LE R] [LT R] [DecidableEq R] [DecidableRel (LE.le : R → R → Prop)]
  [DecidableRel (LT.lt : R → R → Prop)]

/-- One of the four `while((candidate = ...->Next()))` loops of `MHT::Process`
(lines 107-117, 121-131, 135-145, 149-159): they differ only in the array iterated
and in the formula evaluated. The state threaded through is the accumulated
`momentum` and `gRandom`. -/
def selectionLoop (m : TMath R) (formula : R → R → R) :
    List (Candidate R) → TLorentzVector R × TRandom R → TLorentzVector R × TRandom R
  | [], st => st
  | candidate :: rest, st =>
    let candidateMomentum := candidate.Momentum
    let draw := st.2.Uniform
    if draw.1 ≤ formula (candidateMomentum.Pt m) (candidateMomentum.Eta m) then
      selectionLoop m formula rest (st.1 + candidateMomentum, draw.2)
    else
      selectionLoop m formula rest (st.1, draw.2)

/-- Lines 103-159 of `MHT::Process`: the accumulator is cleared, then the jet, electron,
muon and photon loops run in this order. -/
def accumulate (m : TMath R) (self : MHT R) (gRandom : TRandom R) :
    TLorentzVector R × TRandom R :=
  let st0 := (TLorentzVector.SetPxPyPzE 0 0 0 0, gRandom)
  let st1 := selectionLoop m self.fJetSelectionFormula self.fJetInputArray st0
  let st2 := selectionLoop m self.fElectronSelectionFormula self.fElectronInputArray st1
  let st3 := selectionLoop m self.fMuonSelectionFormula self.fMuonInputArray st2
  selectionLoop m self.fPhotonSelectionFormula self.fPhotonInputArray st3

/-- Line 164: `momentum.SetPhi(3.14159+momentum.Phi())`. -/
def rotate (m : TMath R) (momentum : TLorentzVector R) : TLorentzVector R :=
  momentum.SetPhi m (3.14159 + momentum.Phi m)

/-- Lines 161-165: the candidate that `MHT::Process` builds from the accumulated
momentum. -/
def outputCandidate (m : TMath R) (momentum : TLorentzVector R) : Candidate R :=
  let candidate : Candidate R := NewCandidate
  let candidate := { candidate with Position := TLorentzVector.SetXYZT 0 0 0 0 }
  { candidate with Momentum := rotate m momentum }

/-- `MHT::Process`: the module and `gRandom` after one call. -/
def Process (m : TMath R) (self : MHT R) (gRandom : TRandom R) : MHT R × TRandom R :=
  let st := accumulate m self gRandom
  let candidate := outputCandidate m st.1
  ({ self with fMomentumOutputArray := self.fMomentumOutputArray ++ [candidate] }, st.2)

/-- The four categories of input candidates. -/
inductive Category where
  | Jet
  | Electron
  | Muon
  | Photon

/-- The selection formula configured for a category. -/
def formulaOf (self : MHT R) : Category → R → R → R
  | Category.Jet => self.fJetSelectionFormula
  | Category.Electron => self.fElectronSelectionFormula
  | Category.Muon => self.fMuonSelectionFormula
  | Category.Photon => self.fPhotonSelectionFormula

/-- The candidates of one event in the order of the specification: all jets, then all
electrons, then all muons, then all photons, each with its category. -/
def examined (self : MHT R) : List (Category × Candidate R) :=
  self.fJetInputArray.map (fun c => (Category.Jet, c))
    ++ self.fElectronInputArray.map (fun c => (Category.Electron, c))
    ++ self.fMuonInputArray.map (fun c => (Category.Muon, c))
    ++ self.fPhotonInputArray.map (fun c => (Category.Photon, c))

end MHT

/-- The next `n` values that the random source is going to return. -/
def TRandom.upcoming {R : Type} (g : TRandom R) (n : Nat) : List R :=
  (List.range n).map (fun i => g.seq (g.pos + i))

/-- The random source after `k` further values have been taken from it. -/
def TRandom.skip {R : Type} (g : TRandom R) (k : Nat) : TRandom R :=
  { g with pos := g.pos + k }

namespace MHT

variable {R : Type} [Zero R] [One R] [Add R] [Sub R] [Mul R] [Div R] [Neg R] [OfScientific R]
  [LE R] [LT R] [DecidableEq R] [DecidableRel (LE.le : R → R → Prop)]
  [DecidableRel (LT.lt : R → R → Prop)]

/-- The acceptance test of the specification for one candidate and its draw `u`:
`u <= predicate(pt, eta)`. -/
def passes (m : TMath R) (formula : R → R → R) (c : Candidate R) (u : R) : Bool :=
  decide (u ≤ formula (c.Momentum.Pt m) (c.Momentum.Eta m))

/-- The component-wise sum of the momenta of the candidates of one category that pass
their test, each candidate coming with its own draw. -/
def categorySum (m : TMath R) (formula : R → R → R) (paired : List (Candidate R × R)) :
    TLorentzVector R :=
  ((paired.filter (fun x => passes m formula x.1 x.2)).map (fun x => x.1.Momentum)).sum

/-- The candidates of the event with their draws: the i-th draw is paired with the i-th
candidate of `examined`. -/
def pairing (self : MHT R) (gRandom : TRandom R) : List ((Category × Candidate R) × R) :=
  (examined self).zip (gRandom.upcoming (examined self).length)

/-- The candidates that the specification includes: those whose draw satisfies
`u <= predicate(pt, eta)` for the predicate of their own category. -/
def selected (m : TMath R) (self : MHT R) (gRandom : TRandom R) :
    List ((Category × Candidate R) × R) :=
  (pairing self gRandom).filter (fun x => passes m (formulaOf self x.1.1) x.1.2 x.2)

/-- The accumulated momentum as the specification words it: the component-wise sum of
the momenta of exactly the `selected` candidates. -/
def selectedSum (m : TMath R) (self : MHT R) (gRandom : TRandom R) : TLorentzVector R :=
  ((selected m self gRandom).map (fun x => x.1.2.Momentum)).sum

/-- The value that the formula of its own category takes at a candidate of the event. -/
def formulaValue (m : TMath R) (self : MHT R) (x : Category × Candidate R) : R :=
  formulaOf self x.1 (x.2.Momentum.Pt m) (x.2.Momentum.Eta m)

/-- The straight component-wise sum of the momenta of all jets, electrons, muons and
photons of the event. -/
def totalMomentum (self : MHT R) : TLorentzVector R :=
  ((examined self).map (fun x => x.2.Momentum)).sum

end MHT

/-! ## Concrete events -/

section Examples

variable (R : Type) [LinearOrderedField R]

/-- The default formula `"pt>30"` of `MHT::Init`: `1` where the comparison holds and `0`
where it does not. -/
def ptAbove30 (pt _eta : R) : R := if 30 < pt then 1 else 0

/-- A random source that returns `u` at every draw. -/
def constantDraws (u : R) : TRandom R := ⟨fun _ => u, 0⟩

/-- A random source that returns the values of `us` first and `u` ever after. -/
def drawsOf (us : List R) (u : R) : TRandom R := ⟨fun i => us.getD i u, 0⟩

/-- A candidate at the origin with momentum `(px, py, pz, e)`. -/
def candidateWith (px py pz e : R) : Candidate R := ⟨0, ⟨px, py, pz, e⟩⟩

/-- One jet of transverse momentum 50 along the x axis, nothing else, default formulas. -/
def oneJetEvent : MHT R :=
  ⟨[candidateWith R 50 0 0 50], [], [], [], [],
    ptAbove30 R, ptAbove30 R, ptAbove30 R, ptAbove30 R⟩

/-- One candidate in each category, every formula the constant `p`. -/
def constantFormulaEvent (p : R) : MHT R :=
  ⟨[candidateWith R 1 0 0 1], [candidateWith R 0 2 0 2], [candidateWith R 0 0 3 3],
    [candidateWith R 1 1 1 2], [], fun _ _ => p, fun _ _ => p, fun _ _ => p, fun _ _ => p⟩

/-- Two jets and one muon, default formulas. -/
def twoJetEvent : MHT R :=
  ⟨[candidateWith R 40 0 0 40, candidateWith R 0 50 0 50], [], [candidateWith R 0 0 3 3],
    [], [], ptAbove30 R, ptAbove30 R, ptAbove30 R, ptAbove30 R⟩

/-- The event `twoJetEvent` with its two jets in the other order. -/
def twoJetEventSwapped : MHT R :=
  ⟨[candidateWith R 0 50 0 50, candidateWith R 40 0 0 40], [], [candidateWith R 0 0 3 3],
    [], [], ptAbove30 R, ptAbove30 R, ptAbove30 R, ptAbove30 R⟩

/-- The candidates of `constantFormulaEvent`, with formulas out of the range `[0,1]`:
constantly 2 for jets and muons, constantly -1 for electrons and photons. -/
def mixedFormulaEvent : MHT R :=
  ⟨[candidateWith R 1 0 0 1], [candidateWith R 0 2 0 2], [candidateWith R 0 0 3 3],
    [candidateWith R 1 1 1 2], [], fun _ _ => 2, fun _ _ => -1, fun _ _ => 2,
    fun _ _ => -1⟩

end Examples

/-! ## Rounded arithmetic

`Double64` carries the finite values of the IEEE 754 binary64 format as rational
numbers; every operation returns the exact result rounded to the nearest value of the
format, ties to the even significand. Overflow, infinities and NaN are left out. -/

/-- The spacing of the binary64 values in the binade of `x`: `2 ^ (e - 52)` for
`2 ^ e <= |x| < 2 ^ (e + 1)`, and the subnormal spacing `2 ^ (-1074)` below `2 ^ (-1022)`. -/
def ulp (x : ℚ) : ℚ := 2 ^ (max (Int.log 2 |x|) (-1022) - 52)

/-- The integer nearest to `q`, the even one of the two when `q` lies half-way. -/
def roundHalfEven (q : ℚ) : ℤ :=
  if q - ⌊q⌋ < 1 / 2 then ⌊q⌋
  else if 1 / 2 < q - ⌊q⌋ then ⌊q⌋ + 1
  else if ⌊q⌋ % 2 = 0 then ⌊q⌋
  else ⌊q⌋ + 1

/-- A finite `Double_t`, given by its value. -/
structure Double64 where
  val : ℚ
  deriving DecidableEq

namespace Double64

/-- The binary64 value nearest to the rational `x` (round to nearest, ties to even). -/
def round (x : ℚ) : Double64 := ⟨roundHalfEven (x / ulp x) * ulp x⟩

instance : Zero Double64 := ⟨⟨0⟩⟩

instance : One Double64 := ⟨⟨1⟩⟩

instance : Add Double64 := ⟨fun a b => round (a.val + b.val)⟩

instance : Sub Double64 := ⟨fun a b => round (a.val - b.val)⟩

instance : Mul Double64 := ⟨fun a b => round (a.val * b.val)⟩

instance : Div Double64 := ⟨fun a b => round (a.val / b.val)⟩

instance : Neg Double64 := ⟨fun a => ⟨-a.val⟩⟩

instance : OfScientific Double64 :=
  ⟨fun mantissa exponentSign exponent =>
    round (OfScientific.ofScientific mantissa exponentSign exponent)⟩

instance : LE Double64 := ⟨fun a b => a.val ≤ b.val⟩

instance : LT Double64 := ⟨fun a b => a.val < b.val⟩

instance : DecidableRel (LE.le : Double64 → Double64 → Prop) :=
  fun a b => inferInstanceAs (Decidable (a.val ≤ b.val))

instance : DecidableRel (LT.lt : Double64 → Double64 → Prop) :=
  fun a b => inferInstanceAs (Decidable (a.val < b.val))

end Double64

/-- A massless jet along the x axis with `px = E = 2 ^ 53`. -/
def bigJet : Candidate Double64 :=
  ⟨0, ⟨⟨9007199254740992⟩, 0, 0, ⟨9007199254740992⟩⟩⟩

/-- A massless jet along the x axis with `px = E = 1`. -/
def unitJet : Candidate Double64 := ⟨0, ⟨1, 0, 0, 1⟩⟩

/-- Three jets, the big one first; every formula is constantly 1. -/
def bigFirstEvent : MHT Double64 :=
  ⟨[bigJet, unitJet, unitJet], [], [], [], [],
    fun _ _ => 1, fun _ _ => 1, fun _ _ => 1, fun _ _ => 1⟩

/-- The jets of `bigFirstEvent` in another order, the big one last. -/
def bigLastEvent : MHT Double64 :=
  ⟨[unitJet, unitJet, bigJet], [], [], [], [],
    fun _ _ => 1, fun _ _ => 1, fun _ _ => 1, fun _ _ => 1⟩

/-- A random source on `Double64` whose every draw is 1/2. -/
def halfDraws : TRandom Double64 := constantDraws Double64 ⟨1 / 2⟩

/-! ## Four-vector addition -/

namespace TLorentzVector

variable {R : Type}

@[simp] theorem add_fX [Add R] (a b : TLorentzVector R) : (a + b).fX = a.fX + b.fX := rfl
@[simp] theorem add_fY [Add R] (a b : TLorentzVector R) : (a + b).fY = a.fY + b.fY := rfl
@[simp] theorem add_fZ [Add R] (a b : TLorentzVector R) : (a + b).fZ = a.fZ + b.fZ := rfl
@[simp] theorem add_fE [Add R] (a b : TLorentzVector R) : (a + b).fE = a.fE + b.fE := rfl
@[simp] theorem zero_fX [Zero R] : (0 : TLorentzVector R).fX = 0 := rfl
@[simp] theorem zero_fY [Zero R] : (0 : TLorentzVector R).fY = 0 := rfl
@[simp] theorem zero_fZ [Zero R] : (0 : TLorentzVector R).fZ = 0 := rfl
@[simp] theorem zero_fE [Zero R] : (0 : TLorentzVector R).fE = 0 := rfl

end TLorentzVector

/-! ## The random source -/

namespace TRandom

variable {R : Type}

@[simp] theorem upcoming_zero (g : TRandom R) : g.upcoming 0 = [] := rfl

theorem upcoming_succ (g : TRandom R) (n : Nat) :
    g.upcoming (n + 1) = g.seq g.pos :: (g.skip 1).upcoming n := by
  simp [upcoming, skip, List.range_succ_eq_map, Function.comp_def, Nat.add_assoc,
    Nat.add_comm 1]

@[simp] theorem length_upcoming (g : TRandom R) (n : Nat) : (g.upcoming n).length = n := by
  simp [upcoming]

@[simp] theorem skip_zero (g : TRandom R) : g.skip 0 = g := rfl

@[simp] theorem skip_skip (g : TRandom R) (a b : Nat) : (g.skip a).skip b = g.skip (a + b) := by
  simp [skip, Nat.add_assoc]

@[simp] theorem skip_seq (g : TRandom R) (a : Nat) : (g.skip a).seq = g.seq := rfl

@[simp] theorem skip_pos (g : TRandom R) (a : Nat) : (g.skip a).pos = g.pos + a := rfl

theorem upcoming_add (g : TRandom R) (a b : Nat) :
    g.upcoming (a + b) = g.upcoming a ++ (g.skip a).upcoming b := by
  simp [upcoming, skip, List.range_add, Function.comp_def, Nat.add_assoc]

theorem mem_upcoming {g : TRandom R} {n : Nat} {u : R} (h : u ∈ g.upcoming n) :
    ∃ i, g.pos ≤ i ∧ u = g.seq i := by
  simp only [upcoming, List.mem_map, List.mem_range] at h
  obtain ⟨i, _, rfl⟩ := h
  exact ⟨g.pos + i, Nat.le_add_right _ _, rfl⟩

end TRandom

/-! ## The selection loops -/

namespace MHT

variable {R : Type} [LinearOrderedField R]

/-- A selection loop adds the `categorySum` of its array, paired with the upcoming draws,
to the momentum it starts from, and takes one draw for each candidate. -/
theorem selectionLoop_eq (m : TMath R) (formula : R → R → R) (cs : List (Candidate R))
    (momentum : TLorentzVector R) (g : TRandom R) :
    selectionLoop m formula cs (momentum, g)
      = (momentum + categorySum m formula (cs.zip (g.upcoming cs.length)),
          g.skip cs.length) := by
  induction cs generalizing momentum g with
  | nil => simp [selectionLoop, categorySum]
  | cons c cs ih =>
    have hs : (g.skip 1).skip cs.length = g.skip (cs.length + 1) := by
      rw [TRandom.skip_skip, Nat.add_comm]
    by_cases h : g.seq g.pos ≤ formula (c.Momentum.Pt m) (c.Momentum.Eta m)
    · have hp : passes m formula c (g.seq g.pos) = true := by simp [passes, h]
      simp only [selectionLoop, TRandom.Uniform, h, if_true, List.length_cons,
        TRandom.upcoming_succ, List.zip_cons_cons]
      rw [show ({ g with pos := g.pos + 1 } : TRandom R) = g.skip 1 from rfl, ih, hs]
      simp [categorySum, List.filter_cons, hp, add_assoc]
    · have hp : passes m formula c (g.seq g.pos) = false := by simp [passes, h]
      simp only [selectionLoop, TRandom.Uniform, h, if_false, List.length_cons,
        TRandom.upcoming_succ, List.zip_cons_cons]
      rw [show ({ g with pos := g.pos + 1 } : TRandom R) = g.skip 1 from rfl, ih, hs]
      simp [categorySum, List.filter_cons, hp]

/-- The four loops together: the accumulated momentum is the sum of the four
`categorySum`s, jets taking the first draws, then electrons, muons and photons. -/
theorem accumulate_eq (m : TMath R) (self : MHT R) (g : TRandom R) :
    accumulate m self g
      = (categorySum m self.fJetSelectionFormula
            (self.fJetInputArray.zip (g.upcoming self.fJetInputArray.length))
          + categorySum m self.fElectronSelectionFormula
            (self.fElectronInputArray.zip
              ((g.skip self.fJetInputArray.length).upcoming self.fElectronInputArray.length))
          + categorySum m self.fMuonSelectionFormula
            (self.fMuonInputArray.zip
              ((g.skip (self.fJetInputArray.length + self.fElectronInputArray.length)).upcoming
                self.fMuonInputArray.length))
          + categorySum m self.fPhotonSelectionFormula
            (self.fPhotonInputArray.zip
              ((g.skip (self.fJetInputArray.length + self.fElectronInputArray.length
                + self.fMuonInputArray.length)).upcoming self.fPhotonInputArray.length)),
         g.skip (self.fJetInputArray.length + self.fElectronInputArray.length
           + self.fMuonInputArray.length + self.fPhotonInputArray.length)) := by
  have h0 : TLorentzVector.SetPxPyPzE (0 : R) 0 0 0 = 0 := rfl
  simp only [accumulate, h0, selectionLoop_eq, TRandom.skip_skip, zero_add]

/-- The tagged candidates of one category, paired with draws, select the same momenta
as the untagged pairs under the formula of that category. -/
theorem categorySum_tagged (m : TMath R) (self : MHT R) (t : Category)
    (cs : List (Candidate R)) (us : List R) :
    ((((cs.map (fun c => (t, c))).zip us).filter
        (fun x => passes m (formulaOf self x.1.1) x.1.2 x.2)).map (fun x => x.1.2.Momentum)).sum
      = categorySum m (formulaOf self t) (cs.zip us) := by
  simp [categorySum, List.zip_map_left, List.filter_map, List.map_map, Function.comp_def]

/-- The code and the specification accumulate the same momentum. -/
theorem accumulate_fst (m : TMath R) (self : MHT R) (g : TRandom R) :
    (accumulate m self g).1 = selectedSum m self g := by
  rw [accumulate_eq]
  simp only [selectedSum, selected, pairing, examined, List.length_append, List.length_map,
    TRandom.upcoming_add, TRandom.skip_skip]
  rw [List.zip_append (by simp), List.zip_append (by simp), List.zip_append (by simp)]
  simp only [List.filter_append, List.map_append, List.sum_append, categorySum_tagged]
  rfl

omit [LinearOrderedField R] in
/-- Every draw paired with a candidate is a value of the sequence of the source. -/
theorem draw_of_mem_pairing {self : MHT R} {g : TRandom R} {x : (Category × Candidate R) × R}
    (hx : x ∈ pairing self g) : ∃ i, g.pos ≤ i ∧ x.2 = g.seq i := by
  obtain ⟨⟨t, c⟩, u⟩ := x
  exact TRandom.mem_upcoming (List.of_mem_zip hx).2

/-- The momenta of the paired candidates sum to the total momentum of the event. -/
theorem sum_pairing (self : MHT R) (g : TRandom R) :
    ((pairing self g).map (fun x => x.1.2.Momentum)).sum = totalMomentum self := by
  have h : (pairing self g).map Prod.fst = examined self :=
    List.map_fst_zip _ _ (by simp)
  have h2 : (pairing self g).map (fun x => x.1.2.Momentum)
      = ((pairing self g).map Prod.fst).map (fun x => x.2.Momentum) := by
    simp [List.map_map, Function.comp_def]
  rw [h2, h, totalMomentum]

/-- When every paired candidate passes, all of them are selected and the code
accumulates the total momentum of the event. -/
theorem accumulate_of_all_pass (m : TMath R) (self : MHT R) (g : TRandom R)
    (h : ∀ x ∈ pairing self g, passes m (formulaOf self x.1.1) x.1.2 x.2 = true) :
    selected m self g = pairing self g ∧ (accumulate m self g).1 = totalMomentum self := by
  have hs : selected m self g = pairing self g := List.filter_eq_self.2 h
  exact ⟨hs, by rw [accumulate_fst, selectedSum, hs, sum_pairing]⟩

/-- When no paired candidate passes, none is selected and the accumulator stays zero. -/
theorem accumulate_of_none_pass (m : TMath R) (self : MHT R) (g : TRandom R)
    (h : ∀ x ∈ pairing self g, passes m (formulaOf self x.1.1) x.1.2 x.2 = false) :
    selected m self g = [] ∧ (accumulate m self g).1 = 0 := by
  have hs : selected m self g = [] :=
    List.filter_eq_nil_iff.2 (fun x hx => by simp [h x hx])
  exact ⟨hs, by rw [accumulate_fst, selectedSum, hs]; rfl⟩

/-- The candidate appended by `Process` is the last one of the output array. -/
theorem getLast_process (m : TMath R) (self : MHT R) (g : TRandom R) :
    (Process m self g).1.fMomentumOutputArray.getLast?
      = some ⟨⟨0, 0, 0, 0⟩, rotate m (accumulate m self g).1⟩ :=
  List.getLast?_concat _

/-! ## The rotation on the real numbers -/

theorem rotate_fE (m : TMath R) (v : TLorentzVector R) : (rotate m v).fE = v.fE := rfl

theorem rotate_fZ (m : TMath R) (v : TLorentzVector R) : (rotate m v).fZ = v.fZ := rfl

theorem perp2_nonneg (v : TLorentzVector R) : 0 ≤ v.Perp2 :=
  add_nonneg (mul_self_nonneg _) (mul_self_nonneg _)

/-- Setting the azimuthal angle keeps the squared transverse magnitude. -/
theorem perp2_setPhi (v : TLorentzVector ℝ) (ph : ℝ) :
    (v.SetPhi TMath.real ph).Perp2 = v.Perp2 := by
  have hr : Real.sqrt v.Perp2 * Real.sqrt v.Perp2 = v.Perp2 :=
    Real.mul_self_sqrt (perp2_nonneg v)
  have hcs := Real.cos_sq_add_sin_sq ph
  show Real.sqrt v.Perp2 * Real.cos ph * (Real.sqrt v.Perp2 * Real.cos ph)
      + Real.sqrt v.Perp2 * Real.sin ph * (Real.sqrt v.Perp2 * Real.sin ph) = v.Perp2
  calc Real.sqrt v.Perp2 * Real.cos ph * (Real.sqrt v.Perp2 * Real.cos ph)
        + Real.sqrt v.Perp2 * Real.sin ph * (Real.sqrt v.Perp2 * Real.sin ph)
      = (Real.sqrt v.Perp2 * Real.sqrt v.Perp2) * (Real.cos ph ^ 2 + Real.sin ph ^ 2) := by
        ring
    _ = v.Perp2 := by rw [hr, hcs, mul_one]

/-- The rotation keeps the squared transverse magnitude. -/
theorem perp2_rotate (v : TLorentzVector ℝ) : (rotate TMath.real v).Perp2 = v.Perp2 :=
  perp2_setPhi v _

theorem perp_rotate (v : TLorentzVector ℝ) :
    (rotate TMath.real v).Perp TMath.real = v.Perp TMath.real := by
  simp only [TLorentzVector.Perp, perp2_rotate]

theorem mag_rotate (v : TLorentzVector ℝ) :
    (rotate TMath.real v).Mag TMath.real = v.Mag TMath.real := by
  have h : (rotate TMath.real v).Mag2 = v.Mag2 := by
    show (rotate TMath.real v).Perp2 + v.fZ * v.fZ = v.Perp2 + v.fZ * v.fZ
    rw [perp2_rotate]
  simp only [TLorentzVector.Mag, h]

/-- The null four-vector is not moved by the rotation. -/
theorem rotate_zero : rotate TMath.real (⟨0, 0, 0, 0⟩ : TLorentzVector ℝ) = ⟨0, 0, 0, 0⟩ := by
  simp [rotate, TLorentzVector.SetPhi, TLorentzVector.Perp, TLorentzVector.Perp2, TMath.real]

/-- The sum selected in one category does not depend on the order of the pairs. -/
theorem categorySum_perm (m : TMath R) (formula : R → R → R)
    {l₁ l₂ : List (Candidate R × R)} (h : l₁.Perm l₂) :
    categorySum m formula l₁ = categorySum m formula l₂ :=
  ((h.filter _).map _).sum_eq

/-! ## Evaluation on a one-jet event -/

theorem perp_fifty : (⟨50, 0, 0, 50⟩ : TLorentzVector ℝ).Perp TMath.real = 50 := by
  have h : (50 : ℝ) * 50 + 0 * 0 = 50 * 50 := by ring
  show Real.sqrt (50 * 50 + 0 * 0) = 50
  rw [h, Real.sqrt_mul_self (by norm_num)]

theorem phi_fifty : (⟨50, 0, 0, 50⟩ : TLorentzVector ℝ).Phi TMath.real = 0 := by
  have h : (⟨50, 0⟩ : ℂ) = ((50 : ℝ) : ℂ) := by apply Complex.ext <;> simp
  have h50 : ¬ ((50 : ℝ) = 0 ∧ (0 : ℝ) = 0) := by norm_num
  show (if (50 : ℝ) = 0 ∧ (0 : ℝ) = 0 then (0 : ℝ) else Complex.arg ⟨50, 0⟩) = 0
  rw [if_neg h50, h, Complex.arg_ofReal_of_nonneg (by norm_num)]

theorem accumulate_oneJet :
    accumulate TMath.real (oneJetEvent ℝ) (constantDraws ℝ (1 / 2))
      = (⟨50, 0, 0, 50⟩, (constantDraws ℝ (1 / 2)).skip 1) := by
  have hpt : (candidateWith ℝ 50 0 0 50).Momentum.Pt TMath.real = 50 := perp_fifty
  have hle : (1 / 2 : ℝ) ≤ 1 := by norm_num
  have hlt : (30 : ℝ) < 50 := by norm_num
  simp only [accumulate, oneJetEvent, selectionLoop, TRandom.Uniform, constantDraws, hpt,
    ptAbove30, hlt, if_true, hle]
  refine Prod.ext (TLorentzVector.ext ?_ ?_ ?_ ?_) rfl <;>
    simp [TLorentzVector.SetPxPyPzE, candidateWith]

theorem sin_truncated_pi_pos : 0 < Real.sin 3.14159 := by
  apply Real.sin_pos_of_pos_of_lt_pi
  · norm_num
  · have := Real.pi_gt_d6
    linarith

end MHT

/-! ## Sums of binary64 values -/

/-- The spacing of the binary64 values around a normal `x` with `2 ^ e <= |x| < 2 ^ (e + 1)`. -/
theorem ulp_eq (x : ℚ) (e : ℤ) (h1 : 2 ^ e ≤ |x|) (h2 : |x| < 2 ^ (e + 1))
    (he : -1022 ≤ e) : ulp x = 2 ^ (e - 52) := by
  have hpos : 0 < |x| := lt_of_lt_of_le (zpow_pos (by norm_num) e) h1
  have hlog : Int.log 2 |x| = e := by
    apply le_antisymm
    · have := (Int.lt_zpow_iff_log_lt (by norm_num : 1 < 2) hpos).1 (by exact_mod_cast h2)
      omega
    · exact (Int.zpow_le_iff_le_log (by norm_num : 1 < 2) hpos).1 (by exact_mod_cast h1)
  rw [ulp, hlog, max_eq_left he]

namespace Double64

theorem round_zero : round 0 = 0 := by
  have h : roundHalfEven 0 = 0 := by norm_num [roundHalfEven]
  show (⟨roundHalfEven (0 / ulp 0) * ulp 0⟩ : Double64) = ⟨0⟩
  rw [zero_div, h]
  norm_num

theorem round_one : round 1 = 1 := by
  have h := ulp_eq 1 0 (by norm_num) (by norm_num) (by norm_num)
  show (⟨roundHalfEven (1 / ulp 1) * ulp 1⟩ : Double64) = ⟨1⟩
  rw [h]
  norm_num [roundHalfEven]

theorem round_two : round 2 = ⟨2⟩ := by
  have h := ulp_eq 2 1 (by norm_num) (by norm_num) (by norm_num)
  show (⟨roundHalfEven (2 / ulp 2) * ulp 2⟩ : Double64) = ⟨2⟩
  rw [h]
  norm_num [roundHalfEven]

/-- The value `2 ^ 53` is a binary64 value. -/
theorem round_big : round 9007199254740992 = ⟨9007199254740992⟩ := by
  have h := ulp_eq 9007199254740992 53 (by norm_num) (by norm_num) (by norm_num)
  show (⟨roundHalfEven (9007199254740992 / ulp 9007199254740992)
    * ulp 9007199254740992⟩ : Double64) = ⟨9007199254740992⟩
  rw [h]
  norm_num [roundHalfEven]

/-- The value `2 ^ 53 + 1` lies half-way between two binary64 values and goes to the one
with the even significand, `2 ^ 53`. -/
theorem round_big_succ : round 9007199254740993 = ⟨9007199254740992⟩ := by
  have h := ulp_eq 9007199254740993 53 (by norm_num) (by norm_num) (by norm_num)
  show (⟨roundHalfEven (9007199254740993 / ulp 9007199254740993)
    * ulp 9007199254740993⟩ : Double64) = ⟨9007199254740992⟩
  rw [h]
  norm_num [roundHalfEven]

/-- The value `2 ^ 53 + 2` is a binary64 value. -/
theorem round_big_add_two : round 9007199254740994 = ⟨9007199254740994⟩ := by
  have h := ulp_eq 9007199254740994 53 (by norm_num) (by norm_num) (by norm_num)
  show (⟨roundHalfEven (9007199254740994 / ulp 9007199254740994)
    * ulp 9007199254740994⟩ : Double64) = ⟨9007199254740994⟩
  rw [h]
  norm_num [roundHalfEven]

theorem zero_add_zero : (0 : Double64) + 0 = 0 := by
  show round (0 + 0) = 0
  rw [add_zero, round_zero]

theorem zero_add_one : (0 : Double64) + 1 = 1 := by
  show round (0 + 1) = 1
  rw [zero_add, round_one]

theorem one_add_one : (1 : Double64) + 1 = ⟨2⟩ := by
  show round (1 + 1) = ⟨2⟩
  rw [one_add_one_eq_two, round_two]

theorem zero_add_big : (0 : Double64) + ⟨9007199254740992⟩ = ⟨9007199254740992⟩ := by
  show round (0 + 9007199254740992) = ⟨9007199254740992⟩
  rw [zero_add, round_big]

theorem big_add_one : (⟨9007199254740992⟩ : Double64) + 1 = ⟨9007199254740992⟩ := by
  have h : (9007199254740992 : ℚ) + 1 = 9007199254740993 := by norm_num
  show round (9007199254740992 + 1) = ⟨9007199254740992⟩
  rw [h, round_big_succ]

theorem two_add_big : (⟨2⟩ : Double64) + ⟨9007199254740992⟩ = ⟨9007199254740994⟩ := by
  have h : (2 : ℚ) + 9007199254740992 = 9007199254740994 := by norm_num
  show round (2 + 9007199254740992) = ⟨9007199254740994⟩
  rw [h, round_big_add_two]

theorem half_le_one : (⟨1 / 2⟩ : Double64) ≤ 1 := by
  show (1 / 2 : ℚ) ≤ 1
  norm_num

end Double64

namespace MHT

/-- The loops on `bigFirstEvent`: `((0 + 2^53) + 1) + 1` is `2^53` in binary64. -/
theorem accumulate_bigFirst (m : TMath Double64) :
    (accumulate m bigFirstEvent halfDraws).1
      = ⟨⟨9007199254740992⟩, 0, 0, ⟨9007199254740992⟩⟩ := by
  simp only [accumulate, bigFirstEvent, selectionLoop, TRandom.Uniform, halfDraws,
    constantDraws, Double64.half_le_one, if_true]
  apply TLorentzVector.ext <;>
    simp only [TLorentzVector.add_fX, TLorentzVector.add_fY, TLorentzVector.add_fZ,
      TLorentzVector.add_fE, TLorentzVector.SetPxPyPzE, bigJet, unitJet,
      Double64.zero_add_big, Double64.big_add_one, Double64.zero_add_zero]

/-- The loops on `bigLastEvent`: `((0 + 1) + 1) + 2^53` is `2^53 + 2` in binary64. -/
theorem accumulate_bigLast (m : TMath Double64) :
    (accumulate m bigLastEvent halfDraws).1
      = ⟨⟨9007199254740994⟩, 0, 0, ⟨9007199254740994⟩⟩ := by
  simp only [accumulate, bigLastEvent, selectionLoop, TRandom.Uniform, halfDraws,
    constantDraws, Double64.half_le_one, if_true]
  apply TLorentzVector.ext <;>
    simp only [TLorentzVector.add_fX, TLorentzVector.add_fY, TLorentzVector.add_fZ,
      TLorentzVector.add_fE, TLorentzVector.SetPxPyPzE, bigJet, unitJet,
      Double64.zero_add_one, Double64.one_add_one, Double64.two_add_big,
      Double64.zero_add_zero]

end MHT

/-! ## The claims -/

namespace MHT

variable {R : Type} [LinearOrderedField R]

/-- C4: one call of `MHT::Process` takes exactly `J + E + M + P` values from the random
source, whatever the formulas return: the source afterwards is the one before, advanced
by the number of candidates examined. -/
theorem process_draw_count (m : TMath R) (self : MHT R) (gRandom : TRandom R) :
    (Process m self gRandom).2.seq = gRandom.seq ∧
    (Process m self gRandom).2.pos
      = gRandom.pos + (self.fJetInputArray.length + self.fElectronInputArray.length
          + self.fMuonInputArray.length + self.fPhotonInputArray.length) := by
  simp only [Process, accumulate_eq]
  exact ⟨rfl, rfl⟩

/-- C5: one call of `MHT::Process` leaves in the output array its previous contents
followed by exactly one new candidate, whose position is the origin `(0, 0, 0, 0)` and
whose momentum is the rotated accumulated momentum; the four input arrays are the same
lists of the same candidates afterwards. -/
theorem process_output (m : TMath R) (self : MHT R) (gRandom : TRandom R) :
    (Process m self gRandom).1.fMomentumOutputArray
        = self.fMomentumOutputArray
            ++ [⟨⟨0, 0, 0, 0⟩, rotate m (accumulate m self gRandom).1⟩] ∧
    (Process m self gRandom).1.fMomentumOutputArray.length
        = self.fMomentumOutputArray.length + 1 ∧
    (Process m self gRandom).1.fJetInputArray = self.fJetInputArray ∧
    (Process m self gRandom).1.fElectronInputArray = self.fElectronInputArray ∧
    (Process m self gRandom).1.fMuonInputArray = self.fMuonInputArray ∧
    (Process m self gRandom).1.fPhotonInputArray = self.fPhotonInputArray := by
  refine ⟨rfl, ?_, rfl, rfl, rfl, rfl⟩
  simp [Process]

/-- C2, evaluated on one jet of momentum `(E, px, py, pz) = (50, 50, 0, 0)` with the
formula `"pt>30"` and the draw `1/2`: the jet is accumulated, and the output candidate
has `py = 50 * sin 3.14159`, which is positive, where a rotation by exactly pi gives
`(E, -px, -py, pz) = (50, -50, 0, 0)`. -/
theorem rotation_misses_pi :
    (accumulate TMath.real (oneJetEvent ℝ) (constantDraws ℝ (1 / 2))).1 = ⟨50, 0, 0, 50⟩ ∧
    (Process TMath.real (oneJetEvent ℝ) (constantDraws ℝ (1 / 2))).1.fMomentumOutputArray
      = [⟨⟨0, 0, 0, 0⟩, ⟨50 * Real.cos 3.14159, 50 * Real.sin 3.14159, 0, 50⟩⟩] ∧
    (⟨50 * Real.cos 3.14159, 50 * Real.sin 3.14159, 0, 50⟩ : TLorentzVector ℝ)
      ≠ ⟨-50, -0, 0, 50⟩ := by
  refine ⟨by rw [accumulate_oneJet], ?_, ?_⟩
  · have h : rotate TMath.real (⟨50, 0, 0, 50⟩ : TLorentzVector ℝ)
        = ⟨50 * Real.cos 3.14159, 50 * Real.sin 3.14159, 0, 50⟩ := by
      have hp := perp_fifty
      have hphi := phi_fifty
      simp only [rotate, TLorentzVector.SetPhi, hp, hphi, add_zero]
      rfl
    simp only [Process, outputCandidate, accumulate_oneJet, h]
    rfl
  · intro h
    have hy : 50 * Real.sin 3.14159 = -0 := congrArg TLorentzVector.fY h
    have := sin_truncated_pi_pos
    linarith

/-- C3: the rotation step `momentum.SetPhi(3.14159 + momentum.Phi())` leaves the energy
and the longitudinal component of every four-vector as they were and keeps the
transverse magnitude and the magnitude of the three-momentum; only `px` and `py` can
change. -/
theorem rotation_frame (v : TLorentzVector ℝ) :
    (rotate TMath.real v).fE = v.fE ∧ (rotate TMath.real v).fZ = v.fZ ∧
    (rotate TMath.real v).Perp TMath.real = v.Perp TMath.real ∧
    (rotate TMath.real v).Mag TMath.real = v.Mag TMath.real :=
  ⟨rfl, rfl, perp_rotate v, mag_rotate v⟩

/-- C6 as stated fails: with all four formulas constantly 0 and every draw equal to 0,
a value of `[0,1)`, each candidate passes `0 <= 0`: all four candidates of the event are
selected, the accumulated momentum is `(px, py, pz, E) = (2, 3, 4, 8)` and the output
momentum keeps the energy 8, so it is not the zero four-vector. -/
theorem reject_all_fails_at_zero_draw :
    (∀ t pt eta, formulaOf (constantFormulaEvent ℝ 0) t pt eta = 0) ∧
    (∀ i, 0 ≤ (constantDraws ℝ 0).seq i ∧ (constantDraws ℝ 0).seq i < 1) ∧
    (selected TMath.real (constantFormulaEvent ℝ 0) (constantDraws ℝ 0)).length = 4 ∧
    (accumulate TMath.real (constantFormulaEvent ℝ 0) (constantDraws ℝ 0)).1
      = ⟨2, 3, 4, 8⟩ ∧
    (Process TMath.real (constantFormulaEvent ℝ 0)
        (constantDraws ℝ 0)).1.fMomentumOutputArray.getLast?
      = some ⟨⟨0, 0, 0, 0⟩, rotate TMath.real ⟨2, 3, 4, 8⟩⟩ ∧
    (rotate TMath.real ⟨2, 3, 4, 8⟩).fE = 8 ∧
    rotate TMath.real ⟨2, 3, 4, 8⟩ ≠ ⟨0, 0, 0, 0⟩ := by
  have hall : ∀ x ∈ pairing (constantFormulaEvent ℝ 0) (constantDraws ℝ 0),
      passes TMath.real (formulaOf (constantFormulaEvent ℝ 0) x.1.1) x.1.2 x.2 = true := by
    intro x hx
    obtain ⟨i, _, hi⟩ := draw_of_mem_pairing hx
    have hu : x.2 = 0 := hi
    have hf : formulaOf (constantFormulaEvent ℝ 0) x.1.1 = fun _ _ => 0 := by
      cases x.1.1 <;> rfl
    simp [passes, hu, hf]
  have hacc := accumulate_of_all_pass TMath.real _ _ hall
  have htot : totalMomentum (constantFormulaEvent ℝ 0) = ⟨2, 3, 4, 8⟩ := by
    apply TLorentzVector.ext <;>
      simp [totalMomentum, examined, constantFormulaEvent, candidateWith] <;> norm_num
  have hlen : (pairing (constantFormulaEvent ℝ 0) (constantDraws ℝ 0)).length = 4 := by
    simp [pairing, examined, constantFormulaEvent]
  refine ⟨fun t _ _ => by cases t <;> rfl, fun i => ⟨le_refl _, zero_lt_one⟩,
    by rw [hacc.1, hlen], by rw [hacc.2, htot], by rw [getLast_process, hacc.2, htot], rfl, ?_⟩
  intro h
  have h0 : (8 : ℝ) = 0 := congrArg TLorentzVector.fE h
  norm_num at h0

/-- C6, amended: when all four formulas return 0 everywhere and every draw lies in the
open interval `(0,1)`, no candidate is selected and the output momentum of
`MHT::Process` is the zero four-vector. -/
theorem reject_all (self : MHT ℝ) (gRandom : TRandom ℝ)
    (hzero : ∀ t pt eta, formulaOf self t pt eta = 0)
    (hdraw : ∀ i, 0 < gRandom.seq i ∧ gRandom.seq i < 1) :
    selected TMath.real self gRandom = [] ∧
    (accumulate TMath.real self gRandom).1 = ⟨0, 0, 0, 0⟩ ∧
    (Process TMath.real self gRandom).1.fMomentumOutputArray.getLast?
      = some ⟨⟨0, 0, 0, 0⟩, ⟨0, 0, 0, 0⟩⟩ := by
  have hnone : ∀ x ∈ pairing self gRandom,
      passes TMath.real (formulaOf self x.1.1) x.1.2 x.2 = false := by
    intro x hx
    obtain ⟨i, _, hi⟩ := draw_of_mem_pairing hx
    have hpos : 0 < x.2 := hi ▸ (hdraw i).1
    simp [passes, hzero, hpos]
  have hacc := accumulate_of_none_pass TMath.real self gRandom hnone
  refine ⟨hacc.1, hacc.2, ?_⟩
  rw [getLast_process, hacc.2]
  exact congrArg (fun v => some (Candidate.mk ⟨0, 0, 0, 0⟩ v)) rotate_zero

/-- Witness of `reject_all`: one candidate in each category, formulas constantly 0,
every draw equal to 1/2. -/
theorem reject_all_witness :
    (∀ t pt eta, formulaOf (constantFormulaEvent ℝ 0) t pt eta = 0) ∧
    (∀ i, (0 : ℝ) < (constantDraws ℝ (1 / 2)).seq i ∧ (constantDraws ℝ (1 / 2)).seq i < 1) ∧
    selected TMath.real (constantFormulaEvent ℝ 0) (constantDraws ℝ (1 / 2)) = [] ∧
    (accumulate TMath.real (constantFormulaEvent ℝ 0) (constantDraws ℝ (1 / 2))).1
      = ⟨0, 0, 0, 0⟩ ∧
    (Process TMath.real (constantFormulaEvent ℝ 0)
        (constantDraws ℝ (1 / 2))).1.fMomentumOutputArray.getLast?
      = some ⟨⟨0, 0, 0, 0⟩, ⟨0, 0, 0, 0⟩⟩ :=
  have hd : ∀ i, (0 : ℝ) < (constantDraws ℝ (1 / 2)).seq i ∧
      (constantDraws ℝ (1 / 2)).seq i < 1 := fun _ => by
    constructor <;> simp only [constantDraws] <;> norm_num
  have hf : ∀ t pt eta, formulaOf (constantFormulaEvent ℝ 0) t pt eta = 0 :=
    fun t _ _ => by cases t <;> rfl
  ⟨hf, hd, reject_all (constantFormulaEvent ℝ 0) (constantDraws ℝ (1 / 2)) hf hd⟩

/-- C8: with four empty input arrays, whatever the formulas and the random source,
`MHT::Process` takes no draw, the accumulator stays `(0, 0, 0, 0)`, the rotation leaves
the zero vector as it is, and the candidate appended has the zero four-vector as
momentum. -/
theorem process_empty (out : List (Candidate ℝ)) (fJ fE fM fP : ℝ → ℝ → ℝ)
    (gRandom : TRandom ℝ) :
    accumulate TMath.real ⟨[], [], [], [], out, fJ, fE, fM, fP⟩ gRandom
      = (⟨0, 0, 0, 0⟩, gRandom) ∧
    rotate TMath.real (⟨0, 0, 0, 0⟩ : TLorentzVector ℝ) = ⟨0, 0, 0, 0⟩ ∧
    Process TMath.real ⟨[], [], [], [], out, fJ, fE, fM, fP⟩ gRandom
      = (⟨[], [], [], [], out ++ [⟨⟨0, 0, 0, 0⟩, ⟨0, 0, 0, 0⟩⟩], fJ, fE, fM, fP⟩,
          gRandom) := by
  refine ⟨rfl, rotate_zero, ?_⟩
  have h : accumulate TMath.real ⟨[], [], [], [], out, fJ, fE, fM, fP⟩ gRandom
      = (⟨0, 0, 0, 0⟩, gRandom) := rfl
  simp only [Process, outputCandidate, h, rotate_zero]
  rfl

end MHT

end Delphes
